import Mathlib

/-!
Verification of the LCMSpector core processing claims against a shallow
embedding of the repository's source.

Conventions of the embedding:
* machine floating-point values carried by scans, XICs and calibration data
  are modelled as rationals (`ℚ`); where a claim is genuinely about IEEE
  special values (NaN / infinity), a dedicated type `MFloat` with explicit
  non-finite constructors is used;
* raw bytes are modelled as `List Nat`;
* the external codecs (base64, zlib / gzip) and the square root used by
  `np.std` are abstracted as function parameters, since their internals are
  library code outside this repository; every claim proved here is
  independent of the values those parameters take.
-/

/- ------------------------------------------------------------------ -/
/- Binary search, embedding `np.searchsorted`.

`np.searchsorted(a, v, side='left')` runs the loop
  while lo < hi: mid = (lo+hi)//2; if a[mid] < v: lo = mid+1 else hi = mid
and returns `lo`; `side='right'` uses `a[mid] <= v`.                     -/

/-- Embedding of `np.searchsorted(xs, v, side='left')` restricted to the
index interval `[lo, hi)`: binary search for the first index whose value is
not below `v`. -/
def searchLeft (xs : List ℚ) (v : ℚ) (lo hi : Nat) : Nat :=
  if lo < hi then
    if xs.getD ((lo + hi) / 2) 0 < v then searchLeft xs v ((lo + hi) / 2 + 1) hi
    else searchLeft xs v lo ((lo + hi) / 2)
  else lo
termination_by hi - lo
decreasing_by
  · omega
  · omega

/-- Embedding of `np.searchsorted(xs, v, side='right')` restricted to the
index interval `[lo, hi)`: binary search for the first index whose value is
strictly above `v`. -/
def searchRight (xs : List ℚ) (v : ℚ) (lo hi : Nat) : Nat :=
  if lo < hi then
    if xs.getD ((lo + hi) / 2) 0 ≤ v then searchRight xs v ((lo + hi) / 2 + 1) hi
    else searchRight xs v lo ((lo + hi) / 2)
  else lo
termination_by hi - lo
decreasing_by
  · omega
  · omega

/-- Characterisation of `searchLeft` on a non-decreasing list: it returns an
index `k` of `[lo, hi]` such that every entry before `k` is below `v` and
every entry from `k` on is at least `v`. -/
theorem searchLeft_spec (xs : List ℚ) (v : ℚ)
    (mono : ∀ i j : Nat, i ≤ j → j < xs.length → xs.getD i 0 ≤ xs.getD j 0)
    (lo hi : Nat) :
    lo ≤ hi → hi ≤ xs.length →
    (∀ i, i < lo → xs.getD i 0 < v) →
    (∀ i, hi ≤ i → i < xs.length → v ≤ xs.getD i 0) →
    lo ≤ searchLeft xs v lo hi ∧ searchLeft xs v lo hi ≤ hi ∧
      (∀ i, i < searchLeft xs v lo hi → xs.getD i 0 < v) ∧
      (∀ i, searchLeft xs v lo hi ≤ i → i < xs.length → v ≤ xs.getD i 0) := by
  induction lo, hi using searchLeft.induct xs v with
  | case1 lo hi hlt hmid ih =>
    intro _ hhi hbelow habove
    rw [searchLeft, if_pos hlt, if_pos hmid]
    have hbelow2 : ∀ i, i < (lo + hi) / 2 + 1 → xs.getD i 0 < v := by
      intro i hi2
      exact lt_of_le_of_lt (mono i ((lo + hi) / 2) (by omega) (by omega)) hmid
    obtain ⟨h1, h2, h3, h4⟩ := ih (by omega) hhi hbelow2 habove
    exact ⟨by omega, h2, h3, h4⟩
  | case2 lo hi hlt hmid ih =>
    intro _ hhi hbelow habove
    rw [searchLeft, if_pos hlt, if_neg hmid]
    have habove2 : ∀ i, (lo + hi) / 2 ≤ i → i < xs.length → v ≤ xs.getD i 0 := by
      intro i hm hilen
      exact le_trans (le_of_not_lt hmid) (mono ((lo + hi) / 2) i hm hilen)
    obtain ⟨h1, h2, h3, h4⟩ := ih (by omega) (by omega) hbelow habove2
    exact ⟨h1, by omega, h3, h4⟩
  | case3 lo hi hlt =>
    intro hle hhi hbelow habove
    rw [searchLeft, if_neg hlt]
    exact ⟨le_refl lo, hle, hbelow, fun i hli hilen => habove i (by omega) hilen⟩

/-- Characterisation of `searchRight` on a non-decreasing list: it returns an
index `k` of `[lo, hi]` such that every entry before `k` is at most `v` and
every entry from `k` on is strictly above `v`. -/
theorem searchRight_spec (xs : List ℚ) (v : ℚ)
    (mono : ∀ i j : Nat, i ≤ j → j < xs.length → xs.getD i 0 ≤ xs.getD j 0)
    (lo hi : Nat) :
    lo ≤ hi → hi ≤ xs.length →
    (∀ i, i < lo → xs.getD i 0 ≤ v) →
    (∀ i, hi ≤ i → i < xs.length → v < xs.getD i 0) →
    lo ≤ searchRight xs v lo hi ∧ searchRight xs v lo hi ≤ hi ∧
      (∀ i, i < searchRight xs v lo hi → xs.getD i 0 ≤ v) ∧
      (∀ i, searchRight xs v lo hi ≤ i → i < xs.length → v < xs.getD i 0) := by
  induction lo, hi using searchRight.induct xs v with
  | case1 lo hi hlt hmid ih =>
    intro _ hhi hbelow habove
    rw [searchRight, if_pos hlt, if_pos hmid]
    have hbelow2 : ∀ i, i < (lo + hi) / 2 + 1 → xs.getD i 0 ≤ v := by
      intro i hi2
      exact le_trans (mono i ((lo + hi) / 2) (by omega) (by omega)) hmid
    obtain ⟨h1, h2, h3, h4⟩ := ih (by omega) hhi hbelow2 habove
    exact ⟨by omega, h2, h3, h4⟩
  | case2 lo hi hlt hmid ih =>
    intro _ hhi hbelow habove
    rw [searchRight, if_pos hlt, if_neg hmid]
    have habove2 : ∀ i, (lo + hi) / 2 ≤ i → i < xs.length → v < xs.getD i 0 := by
      intro i hm hilen
      exact lt_of_lt_of_le (lt_of_not_le hmid) (mono ((lo + hi) / 2) i hm hilen)
    obtain ⟨h1, h2, h3, h4⟩ := ih (by omega) (by omega) hbelow habove2
    exact ⟨h1, by omega, h3, h4⟩
  | case3 lo hi hlt =>
    intro hle hhi hbelow habove
    rw [searchRight, if_neg hlt]
    exact ⟨le_refl lo, hle, hbelow, fun i hli hilen => habove i (by omega) hilen⟩

/- ------------------------------------------------------------------ -/
/- XIC sampling, embedding `parse_ms1_with_xic_optimization`
   (src/lcmspector/utils/fast_mzml_parser.pyx, lines 324-335):

     low_mass  = target_mass - mass_tolerance        (mass_tolerance = 3*accuracy)
     high_mass = target_mass + mass_tolerance
     start_idx = np.searchsorted(mz_array, low_mass, side='left')
     end_idx   = np.searchsorted(mz_array, high_mass, side='right')
     if start_idx < end_idx:
         current_xic[i] = np.sum(intensity_array[start_idx:end_idx])  -/

/-- Embedding of the XIC sample of `parse_ms1_with_xic_optimization` for one
target on one scan: binary-search index bounds of the inclusive mass window
`[target - 3*acc, target + 3*acc]`, then the sum of intensities in that index
range (zero when the range is empty, since `current_xic` is zero-initialised). -/
def xicSample (mz intens : List ℚ) (target acc : ℚ) : ℚ :=
  let lowMass := target - 3 * acc
  let highMass := target + 3 * acc
  let startIdx := searchLeft mz lowMass 0 mz.length
  let endIdx := searchRight mz highMass 0 mz.length
  if startIdx < endIdx then ∑ i ∈ Finset.Ico startIdx endIdx, intens.getD i 0 else 0

/-- Reference linear scan from the spec's words: the sum of the intensities
whose mass `m` satisfies `target - 3*acc ≤ m ≤ target + 3*acc`, both ends
inclusive. -/
def bruteXicSample (mz intens : List ℚ) (target acc : ℚ) : ℚ :=
  ∑ i ∈ Finset.range mz.length,
    if target - 3 * acc ≤ mz.getD i 0 ∧ mz.getD i 0 ≤ target + 3 * acc then
      intens.getD i 0
    else 0

/-- Monotone index access follows from an adjacent-pairs sorted hypothesis. -/
theorem mono_of_chain (mz : List ℚ) (hs : List.Chain' (· ≤ ·) mz) :
    ∀ i j : Nat, i ≤ j → j < mz.length → mz.getD i 0 ≤ mz.getD j 0 := by
  intro i j hij hj
  rcases Nat.eq_or_lt_of_le hij with rfl | hlt
  · exact le_refl _
  · have hp : List.Pairwise (· ≤ ·) mz := (List.chain'_iff_pairwise).mp hs
    have := (List.pairwise_iff_get).mp hp ⟨i, by omega⟩ ⟨j, hj⟩ hlt
    rw [List.getD_eq_get _ _ (by omega : i < mz.length), List.getD_eq_get _ _ hj]
    exact this

/-- C1: on a scan with a non-decreasing mass axis the XIC sample obtained by
binary search (`side='left'` at `target - 3*acc`, `side='right'` at
`target + 3*acc`) equals the brute-force linear-scan sum over the inclusive
window, for any positive target mass and positive mass accuracy. -/
theorem xic_binary_search_eq_brute (mz intens : List ℚ) (target acc : ℚ)
    (hsorted : List.Chain' (· ≤ ·) mz) (htarget : 0 < target) (hacc : 0 < acc) :
    xicSample mz intens target acc = bruteXicSample mz intens target acc := by
  have mono := mono_of_chain mz hsorted
  set n := mz.length with hn
  set low := target - 3 * acc with hlow
  set high := target + 3 * acc with hhigh
  have hlh : low ≤ high := by rw [hlow, hhigh]; linarith
  obtain ⟨hL0, hLn, hLbelow, hLabove⟩ :=
    searchLeft_spec mz low mono 0 n (Nat.zero_le n) (le_refl n)
      (fun i hi => absurd hi (Nat.not_lt_zero i))
      (fun i hni hin => by omega)
  obtain ⟨hR0, hRn, hRbelow, hRabove⟩ :=
    searchRight_spec mz high mono 0 n (Nat.zero_le n) (le_refl n)
      (fun i hi => absurd hi (Nat.not_lt_zero i))
      (fun i hni hin => by omega)
  set L := searchLeft mz low 0 n
  set R := searchRight mz high 0 n
  have hLR : L ≤ R := by
    by_contra hcon
    push_neg at hcon
    have hRn' : R < n := lt_of_lt_of_le hcon hLn
    have h1 : mz.getD R 0 < low := hLbelow R hcon
    have h2 : high < mz.getD R 0 := hRabove R (le_refl R) hRn'
    linarith
  have hsplit1 : ∑ i ∈ Finset.Ico 0 L,
        (if low ≤ mz.getD i 0 ∧ mz.getD i 0 ≤ high then intens.getD i 0 else 0) = 0 := by
    refine Finset.sum_eq_zero ?_
    intro i hi
    rw [Finset.mem_Ico] at hi
    have : mz.getD i 0 < low := hLbelow i hi.2
    rw [if_neg]
    rintro ⟨hc1, _⟩
    linarith
  have hsplit3 : ∑ i ∈ Finset.Ico R n,
        (if low ≤ mz.getD i 0 ∧ mz.getD i 0 ≤ high then intens.getD i 0 else 0) = 0 := by
    refine Finset.sum_eq_zero ?_
    intro i hi
    rw [Finset.mem_Ico] at hi
    have : high < mz.getD i 0 := hRabove i hi.1 hi.2
    rw [if_neg]
    rintro ⟨_, hc2⟩
    linarith
  have hsplit2 : ∑ i ∈ Finset.Ico L R,
        (if low ≤ mz.getD i 0 ∧ mz.getD i 0 ≤ high then intens.getD i 0 else 0) =
      ∑ i ∈ Finset.Ico L R, intens.getD i 0 := by
    refine Finset.sum_congr rfl ?_
    intro i hi
    rw [Finset.mem_Ico] at hi
    have hin : i < n := lt_of_lt_of_le hi.2 hRn
    have h1 : low ≤ mz.getD i 0 := hLabove i hi.1 hin
    have h2 : mz.getD i 0 ≤ high := hRbelow i hi.2
    rw [if_pos ⟨h1, h2⟩]
  have hbrute : bruteXicSample mz intens target acc = ∑ i ∈ Finset.Ico L R, intens.getD i 0 := by
    unfold bruteXicSample
    rw [Finset.range_eq_Ico, ← Finset.sum_Ico_consecutive _ (Nat.zero_le L) (le_trans hLR hRn),
      ← Finset.sum_Ico_consecutive _ hLR hRn, hsplit1, hsplit3, hsplit2]
    ring
  rw [hbrute]
  unfold xicSample
  by_cases hcase : L < R
  · rw [if_pos hcase]
  · rw [if_neg hcase]
    have : L = R := le_antisymm hLR (le_of_not_lt hcase)
    rw [this, Finset.Ico_self, Finset.sum_empty]

/-- C1 witness: the hypotheses of `xic_binary_search_eq_brute` are satisfied by
a concrete three-point scan with target mass 2 and accuracy 1/10. -/
theorem xic_binary_search_eq_brute_witness :
    xicSample [1, 2, 3] [10, 20, 30] 2 (1 / 10) =
      bruteXicSample [1, 2, 3] [10, 20, 30] 2 (1 / 10) :=
  xic_binary_search_eq_brute [1, 2, 3] [10, 20, 30] 2 (1 / 10)
    (by norm_num [List.chain'_cons, List.chain'_singleton]) (by norm_num) (by norm_num)

/- ------------------------------------------------------------------ -/
/- Spectrum decoder, embedding `decode_binary_data`
   (src/lcmspector/utils/fast_mzml_parser.pyx, lines 60-86):

     decoded_data = base64.b64decode(binary_data)          # raises on invalid text
     if compression == 'zlib': decoded_data = zlib.decompress(decoded_data)
     elif compression == 'gzip': decoded_data = gzip.decompress(decoded_data)
     if precision == '32':
         return np.frombuffer(decoded_data, dtype=np.float32).astype(np.float64)
     else:
         return np.frombuffer(decoded_data, dtype=np.float64)

   The byte-level codecs are library code, abstracted here as function
   parameters returning `Option` (`none` = the library call raises); an
   exception raised inside the decoder is modelled as the result `none`.
   `np.frombuffer` raises exactly when the byte count is not a multiple of
   the element width; on success it reinterprets each width-sized group of
   bytes as one float, modelled here as the list of those groups.           -/

/-- Declared numeric precision of one binary data array: 32- or 64-bit floats. -/
inductive Precision where
  | p32
  | p64
deriving DecidableEq

/-- Declared compression scheme of one binary data array. -/
inductive Compression where
  | nocomp
  | zlib
  | gzip
deriving DecidableEq

/-- Element width in bytes implied by the declared precision. -/
def elemWidth : Precision → Nat
  | .p32 => 4
  | .p64 => 8

/-- Decompression step of `decode_binary_data`: the identity when no scheme is
declared, otherwise the declared library decompressor (abstracted; `none`
models a raised decompression error). -/
def applyCompression (zlibD gzipD : List Nat → Option (List Nat)) :
    Compression → List Nat → Option (List Nat)
  | .nocomp, bs => some bs
  | .zlib, bs => zlibD bs
  | .gzip, bs => gzipD bs

/-- Grouping of a byte list into consecutive width-sized chunks, each chunk
standing for one reinterpreted float of `np.frombuffer`. -/
def chunksOf (w : Nat) (bs : List Nat) : List (List Nat) :=
  if h : w = 0 ∨ bs = [] then [] else bs.take w :: chunksOf w (bs.drop w)
termination_by bs.length
decreasing_by
  rcases bs with _ | ⟨b, bs⟩
  · exact absurd (Or.inr rfl) h
  · have hw : w ≠ 0 := fun hc => h (Or.inl hc)
    simp only [List.length_drop, List.length_cons]
    omega

/-- Embedding of `decode_binary_data`: base64-decode the text, apply the
declared decompression, then reinterpret the bytes as floats of the declared
width; `none` models any raised exception. -/
def decode_binary_data (b64decode : String → Option (List Nat))
    (zlibD gzipD : List Nat → Option (List Nat))
    (binary_data : String) (precision : Precision) (compression : Compression) :
    Option (List (List Nat)) :=
  match b64decode binary_data with
  | none => none
  | some decoded =>
    match applyCompression zlibD gzipD compression decoded with
    | none => none
    | some bytes =>
      if bytes.length % elemWidth precision = 0 then
        some (chunksOf (elemWidth precision) bytes)
      else none

/-- C4: the decoder fails exactly when the text is not validly base64-encoded,
when the declared decompression fails, or when the resulting byte count is not
a multiple of the element width implied by the declared precision (4 bytes for
32-bit, 8 for 64-bit); on every other input it returns the bytes reinterpreted
as width-sized float groups. -/
theorem decode_binary_data_spec (b64decode : String → Option (List Nat))
    (zlibD gzipD : List Nat → Option (List Nat))
    (binary_data : String) (precision : Precision) (compression : Compression) :
    (decode_binary_data b64decode zlibD gzipD binary_data precision compression = none ↔
      b64decode binary_data = none
      ∨ (∃ bs, b64decode binary_data = some bs ∧
          ((compression = .zlib ∧ zlibD bs = none) ∨ (compression = .gzip ∧ gzipD bs = none)))
      ∨ (∃ bs outBytes, b64decode binary_data = some bs ∧
          applyCompression zlibD gzipD compression bs = some outBytes ∧
          outBytes.length % elemWidth precision ≠ 0))
    ∧ (∀ bs outBytes, b64decode binary_data = some bs →
        applyCompression zlibD gzipD compression bs = some outBytes →
        outBytes.length % elemWidth precision = 0 →
        decode_binary_data b64decode zlibD gzipD binary_data precision compression =
          some (chunksOf (elemWidth precision) outBytes)) := by
  constructor
  · constructor
    · intro hnone
      cases hb : b64decode binary_data with
      | none => exact Or.inl rfl
      | some bs =>
        cases hc : applyCompression zlibD gzipD compression bs with
        | none =>
          refine Or.inr (Or.inl ⟨bs, rfl, ?_⟩)
          cases compression with
          | nocomp => exact absurd hc (by simp [applyCompression])
          | zlib => exact Or.inl ⟨rfl, hc⟩
          | gzip => exact Or.inr ⟨rfl, hc⟩
        | some outBytes =>
          simp only [decode_binary_data, hb, hc] at hnone
          by_cases hm : outBytes.length % elemWidth precision = 0
          · rw [if_pos hm] at hnone
            exact absurd hnone (by simp)
          · exact Or.inr (Or.inr ⟨bs, outBytes, rfl, hc, hm⟩)
    · intro hcond
      rcases hcond with hb | ⟨bs, hb, hfail⟩ | ⟨bs, outBytes, hb, hc, hm⟩
      · simp [decode_binary_data, hb]
      · have hc : applyCompression zlibD gzipD compression bs = none := by
          rcases hfail with ⟨rfl, hz⟩ | ⟨rfl, hg⟩
          · exact hz
          · exact hg
        simp [decode_binary_data, hb, hc]
      · simp [decode_binary_data, hb, hc, hm]
  · intro bs outBytes hb hc hm
    simp only [decode_binary_data, hb, hc, if_pos hm]

/-- C4 witness: a concrete instantiation where every codec step succeeds and
the decoder returns the four-byte groups of an eight-byte payload. -/
theorem decode_binary_data_spec_witness :
    decode_binary_data (fun _ => some [0, 1, 2, 3, 4, 5, 6, 7]) (fun _ => none) (fun _ => none)
      "payload" Precision.p32 Compression.nocomp =
      some (chunksOf 4 [0, 1, 2, 3, 4, 5, 6, 7]) :=
  (decode_binary_data_spec (fun _ => some [0, 1, 2, 3, 4, 5, 6, 7]) (fun _ => none)
    (fun _ => none) "payload" Precision.p32 Compression.nocomp).2
    [0, 1, 2, 3, 4, 5, 6, 7] [0, 1, 2, 3, 4, 5, 6, 7] rfl rfl (by decide)

/- ------------------------------------------------------------------ -/
/- Scan store, embedding `parse_ms1_fast`
   (src/lcmspector/utils/fast_mzml_parser.pyx, lines 88-233).

   Per spectrum element the code determines the MS level (default 1), the
   scan time (default 0), then walks the binaryDataArray children: each
   declares an array role (m/z or intensity, possibly neither), and when a
   binary child with text is present the payload is decoded inside
   `try/except` — a raised decode error is logged and leaves the
   corresponding role unassigned, a success overwrites the role's array.
   A scan record is produced only when both roles ended up assigned:
   differing lengths are truncated to the shorter, a non-ascending mass
   axis makes both arrays be permuted by `np.argsort(mz_array)`, and the
   total ion current is the intensity sum.  A failure of the surrounding
   XML parse is caught at top level and turns the whole result into `[]`.

   In this embedding the decode outcome of one binaryDataArray is carried
   as data (`payload`): `none` stands for an absent or empty binary child,
   `some none` for a decode that raised, `some (some xs)` for a decoded
   array; the codecs themselves are treated in `decode_binary_data` above. -/

/-- Controlled-vocabulary role of one binary data array. -/
inductive ArrayRole where
  | mz
  | intensity
deriving DecidableEq

/-- One `binaryDataArray` element of a spectrum as the parser sees it: its
declared role (if any) and the outcome of decoding its binary child. -/
structure BinaryDataArrayElem where
  role : Option ArrayRole
  payload : Option (Option (List ℚ))
deriving DecidableEq

/-- One `spectrum` element: declared MS level (after the default to 1),
declared scan start time (after the default to 0), and its binary arrays. -/
structure SpectrumEntry where
  msLevel : Nat
  scanTime : ℚ
  arrays : List BinaryDataArrayElem
deriving DecidableEq

/-- Scan record produced by the parser, mirroring `FastMS1Scan`. -/
structure Scan where
  scan_time : ℚ
  mz_array : List ℚ
  intensity_array : List ℚ
  ms_level : Nat
  total_ion_current : ℚ
deriving DecidableEq

/-- Loop over the binaryDataArray children: a successfully decoded payload is
assigned to its declared role (later arrays overwrite earlier ones of the same
role); a missing binary child, an undeclared role, or a failed decode leaves
the roles as they were. -/
def extractArrays (arrays : List BinaryDataArrayElem) :
    Option (List ℚ) × Option (List ℚ) :=
  arrays.foldl
    (fun acc elt =>
      match elt.payload with
      | some (some decoded) =>
        match elt.role with
        | some .mz => (some decoded, acc.2)
        | some .intensity => (acc.1, some decoded)
        | none => acc
      | _ => acc)
    (none, none)

/-- Embedding of `np.all(np.diff(mz_array) >= 0)`: adjacent pairs are
non-decreasing. -/
def isNonDecreasingB : List ℚ → Bool
  | [] => true
  | [_] => true
  | a :: b :: rest => decide (a ≤ b) && isNonDecreasingB (b :: rest)

/-- Embedding of `np.argsort`: a permutation of the index range that sorts the
values into ascending order.  The tie order of `np.argsort`'s default
quicksort kind is a NumPy internal; the theorems below do not depend on the
tie order this executable model picks. -/
def argsort (xs : List ℚ) : List Nat :=
  (List.range xs.length).mergeSort (fun i j => decide (xs.getD i 0 ≤ xs.getD j 0))

/-- Construction of one scan record from the two decoded arrays: truncate to
the shorter length when the lengths differ, reorder both arrays by ascending
mass when the mass axis is not non-decreasing, and sum the intensities into
the total ion current. -/
def mkScanRecord (t : ℚ) (lvl : Nat) (mzArr intensArr : List ℚ) : Scan :=
  let minLen := min mzArr.length intensArr.length
  let mz1 := if mzArr.length ≠ intensArr.length then mzArr.take minLen else mzArr
  let int1 := if mzArr.length ≠ intensArr.length then intensArr.take minLen else intensArr
  let idx := argsort mz1
  let mz2 := if isNonDecreasingB mz1 then mz1 else idx.map (fun i => mz1.getD i 0)
  let int2 := if isNonDecreasingB mz1 then int1 else idx.map (fun i => int1.getD i 0)
  { scan_time := t, mz_array := mz2, intensity_array := int2, ms_level := lvl,
    total_ion_current := int2.sum }

/-- Per-spectrum step of `parse_ms1_fast`: only MS-level-1 spectra are
processed, and a scan record is created only when both a mass and an
intensity array were assigned. -/
def processSpectrum (e : SpectrumEntry) : Option Scan :=
  if e.msLevel = 1 then
    match extractArrays e.arrays with
    | (some mzArr, some intensArr) => some (mkScanRecord e.scanTime e.msLevel mzArr intensArr)
    | _ => none
  else none

/-- Embedding of the scan loop of `parse_ms1_fast` over a well-formed stream
of spectrum elements. -/
def parse_ms1_fast (entries : List SpectrumEntry) : List Scan :=
  entries.filterMap processSpectrum

/-- Top-level structure of a measurement file as the parser sees it: either
the XML stream is unparsable (iterating it raises), or it yields a sequence
of spectrum elements. -/
inductive TopLevel where
  | malformed
  | wellFormed (entries : List SpectrumEntry)

/-- Embedding of the whole `parse_ms1_fast` call including its top-level
handler `except Exception: ... return []`: a structurally invalid file is
caught, logged, and turned into the empty scan list. -/
def parse_ms1_fast_file : TopLevel → List Scan
  | .malformed => []
  | .wellFormed entries => parse_ms1_fast entries

/-- Helper: a spectrum entry that ends the array loop without an assigned
mass array or without an assigned intensity array produces no scan record. -/
theorem processSpectrum_eq_none_of_missing (e : SpectrumEntry)
    (h : (extractArrays e.arrays).1 = none ∨ (extractArrays e.arrays).2 = none) :
    processSpectrum e = none := by
  unfold processSpectrum
  by_cases hlvl : e.msLevel = 1
  · rw [if_pos hlvl]
    rcases hex : extractArrays e.arrays with ⟨mzo, into⟩
    rw [hex] at h
    cases mzo with
    | none => cases into <;> rfl
    | some mzArr =>
      cases into with
      | none => rfl
      | some intensArr =>
        rcases h with h | h
        · exact absurd h (by simp)
        · exact absurd h (by simp)
  · rw [if_neg hlvl]

/-- Length of an `argsort` permutation: one index per element. -/
theorem argsort_length (xs : List ℚ) : (argsort xs).length = xs.length := by
  unfold argsort
  rw [List.length_mergeSort, List.length_range]

/-- Lengths of the two arrays of a scan record built from arrays of differing
lengths: both are the shorter input length. -/
theorem mkScanRecord_lengths (t : ℚ) (lvl : Nat) (a b : List ℚ)
    (hne : a.length ≠ b.length) :
    (mkScanRecord t lvl a b).mz_array.length = min a.length b.length ∧
    (mkScanRecord t lvl a b).intensity_array.length = min a.length b.length := by
  unfold mkScanRecord
  simp only [if_pos hne]
  by_cases hs : isNonDecreasingB (a.take (min a.length b.length)) = true
  · simp only [hs, if_pos]
    constructor
    · simp only [List.length_take]
      omega
    · simp only [List.length_take]
      omega
  · simp only [hs]
    simp only [Bool.false_eq_true, if_false, List.length_map, argsort_length, List.length_take]
    omega

/-- C2: an MS-level-1 spectrum entry whose decoded mass and intensity arrays
differ in length is accepted — a scan record is produced, no error is raised —
and both of its arrays are truncated to the shorter length, so they end up
with equal length. -/
theorem scan_truncated_lengths (e : SpectrumEntry) (mzArr intensArr : List ℚ)
    (hlvl : e.msLevel = 1)
    (hex : extractArrays e.arrays = (some mzArr, some intensArr))
    (hne : mzArr.length ≠ intensArr.length) :
    processSpectrum e = some (mkScanRecord e.scanTime e.msLevel mzArr intensArr) ∧
    (mkScanRecord e.scanTime e.msLevel mzArr intensArr).mz_array.length
        = min mzArr.length intensArr.length ∧
    (mkScanRecord e.scanTime e.msLevel mzArr intensArr).intensity_array.length
        = min mzArr.length intensArr.length := by
  obtain ⟨hm, hi⟩ := mkScanRecord_lengths e.scanTime e.msLevel mzArr intensArr hne
  refine ⟨?_, hm, hi⟩
  unfold processSpectrum
  rw [if_pos hlvl, hex]

/-- C2 witness: a concrete entry with a two-point mass axis and a one-point
intensity axis is accepted and truncated to one point on both axes. -/
theorem scan_truncated_lengths_witness :
    processSpectrum ⟨1, 0, [⟨some ArrayRole.mz, some (some [1, 2])⟩,
        ⟨some ArrayRole.intensity, some (some [5])⟩]⟩ =
      some (mkScanRecord 0 1 [1, 2] [5]) ∧
    (mkScanRecord 0 1 [(1 : ℚ), 2] [5]).mz_array.length = min 2 1 ∧
    (mkScanRecord 0 1 [(1 : ℚ), 2] [5]).intensity_array.length = min 2 1 :=
  scan_truncated_lengths ⟨1, 0, [⟨some ArrayRole.mz, some (some [1, 2])⟩,
    ⟨some ArrayRole.intensity, some (some [5])⟩]⟩ [1, 2] [5] rfl rfl (by decide)

/-- C10: an MS-level-1 spectrum entry that ends its array loop without a
usable mass array or without a usable intensity array (missing binary child,
role never declared, or decode failure) contributes no scan record and causes
no error: the entry is simply absent from the parser's output. -/
theorem missing_array_skips_entry (e : SpectrumEntry) (hlvl : e.msLevel = 1)
    (h : (extractArrays e.arrays).1 = none ∨ (extractArrays e.arrays).2 = none) :
    processSpectrum e = none ∧ parse_ms1_fast [e] = [] := by
  have hnone := processSpectrum_eq_none_of_missing e h
  exact ⟨hnone, by simp [parse_ms1_fast, hnone]⟩

/-- C10 witness: an entry with only an intensity array is skipped. -/
theorem missing_array_skips_entry_witness :
    processSpectrum ⟨1, 0, [⟨some ArrayRole.intensity, some (some [1])⟩]⟩ = none ∧
    parse_ms1_fast [⟨1, 0, [⟨some ArrayRole.intensity, some (some [1])⟩]⟩] = [] :=
  missing_array_skips_entry ⟨1, 0, [⟨some ArrayRole.intensity, some (some [1])⟩]⟩ rfl
    (Or.inl rfl)

/-- C6 counterexample: a spectrum entry in which a decode failure occurs (its
first binary array raises) but which still contributes a scan record, because
a later array supplies the mass axis; the claim that every scan with a decode
failure contributes no record is therefore false as stated. -/
theorem decode_failure_still_emits_counterexample :
    (⟨some ArrayRole.mz, some none⟩ : BinaryDataArrayElem) ∈
        ([⟨some ArrayRole.mz, some none⟩, ⟨some ArrayRole.mz, some (some [1])⟩,
          ⟨some ArrayRole.intensity, some (some [2])⟩] : List BinaryDataArrayElem) ∧
    processSpectrum ⟨1, 0, [⟨some ArrayRole.mz, some none⟩,
        ⟨some ArrayRole.mz, some (some [1])⟩,
        ⟨some ArrayRole.intensity, some (some [2])⟩]⟩ ≠ none := by
  constructor
  · exact List.mem_cons_self _ _
  · simp [processSpectrum, extractArrays, List.foldl]

/-- C6 (amended): when a decode failure leaves a spectrum entry without a
usable mass or intensity array, the failure is contained — the entry is
skipped and the stream continues, its output equal to that of the stream with
the failing entry absent. -/
theorem decode_failure_skip_continues (pre post : List SpectrumEntry) (e : SpectrumEntry)
    (hfail : ∃ b ∈ e.arrays, b.payload = some none)
    (hmiss : (extractArrays e.arrays).1 = none ∨ (extractArrays e.arrays).2 = none) :
    parse_ms1_fast (pre ++ e :: post) = parse_ms1_fast (pre ++ post) := by
  have hnone := processSpectrum_eq_none_of_missing e hmiss
  simp [parse_ms1_fast, List.filterMap_append, List.filterMap_cons, hnone]

/-- C6 witness: a stream with one good scan followed by one whose single mass
array fails to decode parses to the same output as the stream without the
failing scan. -/
theorem decode_failure_skip_continues_witness :
    parse_ms1_fast [⟨1, 0, [⟨some ArrayRole.mz, some (some [1])⟩,
        ⟨some ArrayRole.intensity, some (some [2])⟩]⟩,
      ⟨1, 0, [⟨some ArrayRole.mz, some none⟩]⟩] =
    parse_ms1_fast [⟨1, 0, [⟨some ArrayRole.mz, some (some [1])⟩,
        ⟨some ArrayRole.intensity, some (some [2])⟩]⟩] :=
  decode_failure_skip_continues
    [⟨1, 0, [⟨some ArrayRole.mz, some (some [1])⟩,
        ⟨some ArrayRole.intensity, some (some [2])⟩]⟩] []
    ⟨1, 0, [⟨some ArrayRole.mz, some none⟩]⟩
    ⟨⟨some ArrayRole.mz, some none⟩, by simp, rfl⟩ (Or.inl rfl)

/-- C5 counterexample: a structurally invalid measurement file produces the
same value as a perfectly valid file with no spectra — the empty scan list —
so no `ParseError` reaches the caller and nothing labels the file as failed,
contrary to the claim. -/
theorem parse_failure_indistinguishable_counterexample :
    parse_ms1_fast_file TopLevel.malformed = parse_ms1_fast_file (TopLevel.wellFormed []) :=
  rfl

/-- C5 (amended): when the top-level structure of the file is unparsable,
`parse_ms1_fast` catches the exception and returns the empty scan list; the
failure is logged but not raised, and processing of other files is unaffected
because nothing propagates. -/
theorem parse_failure_silent_empty :
    parse_ms1_fast_file TopLevel.malformed = [] :=
  rfl

/- ------------------------------------------------------------------ -/
/- Calibration & quantitation.  The implementing modules
   (calculation/calc_conc.py, ui/model.py, utils/peak_integration.py) are not
   under src/; they are modelled from the spec and from the verbatim snippets
   the repository's documentation carries
   (src/docs/processing_pipeline.md, src/unnamed/part_000).                 -/

/-- Modelled from the spec: an IEEE-style float for the quantitation path,
with explicit NaN and infinities so that the clamping of non-finite results
described in §4.5 of the spec is expressible; finite values are exact
rationals. -/
inductive MFloat where
  | fin (q : ℚ)
  | nan
  | inf
  | ninf
deriving DecidableEq

/-- Subtraction on `MFloat` with the IEEE special-value rules. -/
def mfSub : MFloat → MFloat → MFloat
  | .nan, _ => .nan
  | _, .nan => .nan
  | .fin a, .fin b => .fin (a - b)
  | .fin _, .inf => .ninf
  | .fin _, .ninf => .inf
  | .inf, .fin _ => .inf
  | .inf, .inf => .nan
  | .inf, .ninf => .inf
  | .ninf, .fin _ => .ninf
  | .ninf, .inf => .ninf
  | .ninf, .ninf => .nan

/-- Division on `MFloat` with the IEEE special-value rules. -/
def mfDiv : MFloat → MFloat → MFloat
  | .nan, _ => .nan
  | _, .nan => .nan
  | .fin a, .fin b =>
    if b = 0 then (if a = 0 then .nan else if 0 < a then .inf else .ninf)
    else .fin (a / b)
  | .fin _, .inf => .fin 0
  | .fin _, .ninf => .fin 0
  | .inf, .fin b => if b < 0 then .ninf else .inf
  | .inf, _ => .nan
  | .ninf, .fin b => if b < 0 then .inf else .ninf
  | .ninf, _ => .nan

/-- Embedding of `np.isnan`. -/
def mfIsNan : MFloat → Bool
  | .nan => true
  | _ => false

/-- Embedding of `np.isfinite`. -/
def mfIsFinite : MFloat → Bool
  | .fin _ => true
  | _ => false

/-- Rounding to the nearest integer with ties to even, the rule shared by
Python's built-in `round` and `np.round`. -/
def roundHalfEven (q : ℚ) : ℤ :=
  if q - ⌊q⌋ < 1 / 2 then ⌊q⌋
  else if 1 / 2 < q - ⌊q⌋ then ⌊q⌋ + 1
  else if ⌊q⌋ % 2 = 0 then ⌊q⌋ else ⌊q⌋ + 1

/-- Value of Python's `round(x, 6)` on a finite float. -/
def pyRound6 (q : ℚ) : ℚ := (roundHalfEven (q * 1000000) : ℚ) / 1000000

/-- Rounding a float to 6 decimal places; non-finite values pass through. -/
def mfRound6 : MFloat → MFloat
  | .fin q => .fin (pyRound6 q)
  | x => x

/-- Modelled from the spec: `calculate_concentration` of
calculation/calc_conc.py is not under src/; transcribed from the snippet in
src/docs/processing_pipeline.md (lines 284-293):

    if slope == 0: return 0
    conc = (area - intercept) / slope
    if np.isnan(conc) or not np.isfinite(conc): return 0
    return round(conc, 6)                                                   -/
def calculate_concentration (area slope intercept : MFloat) : MFloat :=
  if slope = .fin 0 then .fin 0
  else
    let concentration := mfDiv (mfSub area intercept) slope
    if mfIsNan concentration || !(mfIsFinite concentration) then .fin 0
    else mfRound6 concentration

/-- C7: `calculate_concentration` returns 0 whenever the slope is 0 (no error,
no NaN); for a nonzero slope it returns `(signal - intercept) / slope` rounded
to 6 decimal places, with any non-finite intermediate result clamped to 0; and
the returned value is finite on every input. -/
theorem calculate_concentration_spec (area slope intercept : MFloat) :
    mfIsFinite (calculate_concentration area slope intercept) = true ∧
    (slope = MFloat.fin 0 → calculate_concentration area slope intercept = MFloat.fin 0) ∧
    (slope ≠ MFloat.fin 0 →
      (∀ q : ℚ, mfDiv (mfSub area intercept) slope = MFloat.fin q →
        calculate_concentration area slope intercept = MFloat.fin (pyRound6 q)) ∧
      (mfIsFinite (mfDiv (mfSub area intercept) slope) = false →
        calculate_concentration area slope intercept = MFloat.fin 0)) := by
  by_cases hs : slope = MFloat.fin 0
  · refine ⟨?_, fun _ => ?_, fun hns => absurd hs hns⟩
    · simp [calculate_concentration, hs, mfIsFinite]
    · simp [calculate_concentration, hs]
  · cases hd : mfDiv (mfSub area intercept) slope with
    | fin q =>
      have hval : calculate_concentration area slope intercept = MFloat.fin (pyRound6 q) := by
        simp [calculate_concentration, hs, hd, mfIsNan, mfIsFinite, mfRound6]
      refine ⟨by simp [hval, mfIsFinite], fun hc => absurd hc hs, fun _ => ⟨?_, ?_⟩⟩
      · intro q2 hq2
        cases hq2
        exact hval
      · intro hfin
        exact absurd hfin (by simp [mfIsFinite])
    | nan =>
      have hval : calculate_concentration area slope intercept = MFloat.fin 0 := by
        simp [calculate_concentration, hs, hd, mfIsNan]
      refine ⟨by simp [hval, mfIsFinite], fun hc => absurd hc hs, fun _ => ⟨?_, fun _ => hval⟩⟩
      intro q2 hq2
      exact absurd hq2 (by simp)
    | inf =>
      have hval : calculate_concentration area slope intercept = MFloat.fin 0 := by
        simp [calculate_concentration, hs, hd, mfIsNan, mfIsFinite]
      refine ⟨by simp [hval, mfIsFinite], fun hc => absurd hc hs, fun _ => ⟨?_, fun _ => hval⟩⟩
      intro q2 hq2
      exact absurd hq2 (by simp)
    | ninf =>
      have hval : calculate_concentration area slope intercept = MFloat.fin 0 := by
        simp [calculate_concentration, hs, hd, mfIsNan, mfIsFinite]
      refine ⟨by simp [hval, mfIsFinite], fun hc => absurd hc hs, fun _ => ⟨?_, fun _ => hval⟩⟩
      intro q2 hq2
      exact absurd hq2 (by simp)

/-- C7 witness: a zero slope yields concentration 0 at a concrete signal. -/
theorem calculate_concentration_spec_witness :
    calculate_concentration (MFloat.fin 7) (MFloat.fin 0) (MFloat.fin 1) = MFloat.fin 0 :=
  (calculate_concentration_spec (MFloat.fin 7) (MFloat.fin 0) (MFloat.fin 1)).2.1 rfl

/-- Value of `np.round(x, 0)`: nearest integer, ties to even. -/
def npRound0 (q : ℚ) : ℚ := (roundHalfEven q : ℚ)

/-- Modelled from the spec: the per-ion data `ms_file.xics[i].ions[ion]` read
by `model.calibrate()` (ui/model.py is not under src/); `peakArea` is the
value of `ion_data.get('MS Peak Area', empty dict).get('baseline_corrected_area', 0)`
when the keys are present, and `msIntensity` is the intensity row
`intens[1]` of `ion_data.get('MS Intensity')` when that entry is not None. -/
structure IonData where
  peakArea : Option ℚ
  msIntensity : Option (List ℚ)
deriving DecidableEq

/-- Modelled from the spec: one loop iteration of the signal extraction in
`model.calibrate()`, transcribed from the snippet in
src/docs/processing_pipeline.md (lines 266-280):

    area = ion_data.get('MS Peak Area', ...).get('baseline_corrected_area', 0)
    if area and area > 0:
        compound_signal += area
        use_peak_areas = True
    else:
        intens = ion_data.get('MS Intensity')
        if intens is not None:
            compound_signal += float(np.round(np.sum(intens[1]), 0))          -/
def calibrateStep (acc : ℚ × Bool) (d : IonData) : ℚ × Bool :=
  let area := d.peakArea.getD 0
  if area ≠ 0 ∧ 0 < area then (acc.1 + area, true)
  else
    match d.msIntensity with
    | some intens => (acc.1 + npRound0 intens.sum, acc.2)
    | none => acc

/-- Modelled from the spec: the aggregated per-compound signal and the
provenance flag of `model.calibrate()`, folding `calibrateStep` over the
compound's ions starting from signal 0 and flag False. -/
def calibrate_signal (ions : List IonData) : ℚ × Bool :=
  ions.foldl calibrateStep (0, false)

/-- Contribution of one ion under the amended reading of the claim: the
baseline-corrected peak area when present and positive, otherwise the summed
XIC intensity rounded to the nearest whole number, or 0 when no XIC intensity
is recorded. -/
def ionContributionAmended (d : IonData) : ℚ :=
  if 0 < d.peakArea.getD 0 then d.peakArea.getD 0
  else
    match d.msIntensity with
    | some intens => npRound0 intens.sum
    | none => 0

/-- Flag telling whether one ion contributed a peak area. -/
def ionUsesPeakArea (d : IonData) : Bool := decide (0 < d.peakArea.getD 0)

/-- One step of the calibration fold adds the amended per-ion contribution and
accumulates the provenance flag. -/
theorem calibrateStep_eq (acc : ℚ × Bool) (d : IonData) :
    calibrateStep acc d = (acc.1 + ionContributionAmended d, acc.2 || ionUsesPeakArea d) := by
  unfold calibrateStep ionContributionAmended ionUsesPeakArea
  by_cases h : 0 < d.peakArea.getD 0
  · rw [if_pos ⟨ne_of_gt h, h⟩, if_pos h]
    simp [h]
  · rw [if_neg (fun hc => h hc.2), if_neg h]
    cases d.msIntensity with
    | some intens => simp [h]
    | none => simp [h]

/-- Generalised fold lemma for the calibration signal. -/
theorem calibrate_signal_foldl (ions : List IonData) (s : ℚ) (b : Bool) :
    ions.foldl calibrateStep (s, b) =
      (s + (ions.map ionContributionAmended).sum, b || ions.any ionUsesPeakArea) := by
  induction ions generalizing s b with
  | nil => simp
  | cons d rest ih =>
    rw [List.foldl_cons, calibrateStep_eq, ih]
    simp [List.sum_cons, Bool.or_assoc, add_assoc]

/-- C8 counterexample: a compound with a single ion that has no peak area and
a summed XIC intensity of 1/4 gets the aggregated signal 0 — the rounded
intensity sum — not the raw summed intensity 1/4 the claim asserts. -/
theorem calibrate_signal_rounds_counterexample :
    (calibrate_signal [⟨none, some [1 / 4]⟩]).1 = 0 ∧
    ([(1 : ℚ) / 4] : List ℚ).sum = 1 / 4 ∧ (0 : ℚ) ≠ 1 / 4 := by
  refine ⟨?_, by norm_num, by norm_num⟩
  have h4 : ⌊(1 : ℚ) / 4⌋ = 0 := by
    rw [Int.floor_eq_iff] <;> norm_num
  have hr : npRound0 ((1 : ℚ) / 4) = 0 := by
    unfold npRound0 roundHalfEven
    rw [h4]
    norm_num
  unfold calibrate_signal
  rw [show ([⟨none, some [1 / 4]⟩] : List IonData).foldl calibrateStep (0, false)
      = calibrateStep (0, false) ⟨none, some [1 / 4]⟩ from rfl]
  unfold calibrateStep
  norm_num [hr]

/-- C8 (amended): the aggregated per-compound signal equals the sum over its
ions where each ion contributes its baseline-corrected peak area whenever that
area is present and positive, and otherwise contributes its summed XIC
intensity rounded to the nearest whole number (0 when none is recorded); the
provenance flag records peak-area-based exactly when at least one ion
contributed a peak area. -/
theorem calibrate_signal_amended (ions : List IonData) :
    calibrate_signal ions =
      ((ions.map ionContributionAmended).sum, ions.any ionUsesPeakArea) := by
  unfold calibrate_signal
  rw [calibrate_signal_foldl]
  simp

/- ------------------------------------------------------------------ -/
/- Adaptive prominence threshold of candidate peak detection.           -/

/-- Ascending sort of a value list, as `np.percentile` performs internally. -/
def npSort (xs : List ℚ) : List ℚ := xs.mergeSort (fun a b => decide (a ≤ b))

/-- Embedding of `np.percentile(xs, q)` with the default linear-interpolation
method: the value at fractional position `q/100 * (n-1)` of the sorted data. -/
def npPercentile (xs : List ℚ) (q : ℚ) : ℚ :=
  let s := npSort xs
  let n := s.length
  if n = 0 then 0
  else
    let pos := q * ((n : ℚ) - 1) / 100
    let i := (⌊pos⌋).toNat
    if i + 1 < n then s.getD i 0 + (pos - (i : ℚ)) * (s.getD (i + 1) 0 - s.getD i 0)
    else s.getD (n - 1) 0

/-- Mean of a value list, as `np.mean`. -/
def npMean (xs : List ℚ) : ℚ := xs.sum / (xs.length : ℚ)

/-- Population variance of a value list, the square of `np.std`. -/
def npVar (xs : List ℚ) : ℚ :=
  ((xs.map (fun x => (x - npMean xs) ^ 2)).sum) / (xs.length : ℚ)

/-- Embedding of `np.std`: the square root of the population variance; the
square-root function is passed as a parameter, every result below holding for
any choice of it. -/
def npStd (sqrtFn : ℚ → ℚ) (xs : List ℚ) : ℚ := sqrtFn (npVar xs)

/-- Embedding of `np.max` on a nonempty value list. -/
def npMax (xs : List ℚ) : ℚ := xs.foldl max (xs.headD 0)

/-- Modelled from the spec: the adaptive prominence threshold of
utils/peak_integration.py, which is not under src/; transcribed from the
snippet in src/docs/processing_pipeline.md (lines 330-343) and
src/unnamed/part_000 (lines 420-433):

    signal_max = np.max(corrected_values)
    signal_std = np.std(corrected_values)
    noise_level = np.std(corrected_values[corrected_values <= np.percentile(corrected_values, 25)])
    baseline_level = np.percentile(corrected_values, 10)
    prominence_threshold = max(5.0, noise_level * 4, signal_std * 2,
                               (signal_max - baseline_level) * 0.005)        -/
def prominence_threshold (sqrtFn : ℚ → ℚ) (corrected_values : List ℚ) : ℚ :=
  let signal_max := npMax corrected_values
  let signal_std := npStd sqrtFn corrected_values
  let noise_level := npStd sqrtFn
    (corrected_values.filter (fun x => decide (x ≤ npPercentile corrected_values 25)))
  let baseline_level := npPercentile corrected_values 10
  max (max (max 5 (noise_level * 4)) (signal_std * 2))
    ((signal_max - baseline_level) * (5 / 1000))

/-- Noise estimate in the claim's words: the standard deviation of the
intensities at or below the 25th percentile of the signal. -/
def noiseEstimate (sqrtFn : ℚ → ℚ) (signal : List ℚ) : ℚ :=
  npStd sqrtFn (signal.filter (fun x => decide (x ≤ npPercentile signal 25)))

/-- Baseline estimate in the claim's words: the 10th percentile of the
intensities. -/
def baselineEstimate (signal : List ℚ) : ℚ := npPercentile signal 10

/-- Prominence threshold in the claim's words: the maximum of the fixed floor
5.0, four times the noise estimate, twice the whole-signal standard deviation,
and 0.5 percent of the distance from baseline estimate to signal maximum. -/
def prominenceThresholdSpec (sqrtFn : ℚ → ℚ) (signal : List ℚ) : ℚ :=
  max (max (max 5 (4 * noiseEstimate sqrtFn signal)) (2 * npStd sqrtFn signal))
    ((npMax signal - baselineEstimate signal) / 200)

/-- Shape lemma: the two spellings of the four-term maximum coincide. -/
theorem max_shape_eq (a b c d : ℚ) :
    max (max (max 5 (a * 4)) (b * 2)) ((c - d) * (5 / 1000)) =
      max (max (max 5 (4 * a)) (2 * b)) ((c - d) / 200) := by
  rw [mul_comm a 4, mul_comm b 2, show ((c - d) * (5 / 1000) : ℚ) = (c - d) / 200 by ring]

/-- C9: the candidate-detection prominence threshold equals the maximum of the
fixed absolute floor 5.0, four times the noise estimate (standard deviation of
the intensities at or below the 25th percentile), twice the whole-signal
standard deviation, and 0.5 percent of (signal maximum minus the
10th-percentile baseline estimate), for every signal and any square-root
implementation. -/
theorem prominence_threshold_spec_eq (sqrtFn : ℚ → ℚ) (signal : List ℚ) :
    prominence_threshold sqrtFn signal = prominenceThresholdSpec sqrtFn signal := by
  unfold prominence_threshold prominenceThresholdSpec noiseEstimate baselineEstimate
  exact max_shape_eq _ _ _ _
